import Mathlib

/-!
Verification of the ober-ml word-sense-induction core.

This file shallowly embeds the two subsystems the specification covers:

* the Chinese-Whispers clustering side (`Graph`, `WSI.findClusters`,
  `WSI.chineseWhispers` from the Java sources), and
* the similarity-kernel side (`argpartition`, the edge-emission loop of
  `calculate_edges` from `tokens_inner.pyx`),

and proves or refutes the frozen behavioural claims about them.

Modelling conventions:
* Java `int` node ids are modelled as `ℕ` (all claims concern ids in
  `[0, 2^31)`), C loop indices as `ℤ` where they can go negative.
* `float` weights are modelled as `ℚ`: the relevant code only copies,
  compares and first-match-looks-up weights, so the exact ordered-field
  carrier is irrelevant to the claims.
* Java `null` is modelled with `Option`; operations that can throw
  (`NullPointerException`, `ArrayIndexOutOfBoundsException`) return
  `Option` results, `none` meaning an exception escapes.
* `java.lang.Integer` reference comparison of autoboxed values: two
  autoboxed equal ints are the same object exactly when the value lies in
  the `Integer` cache `[-128, 127]`; node ids here are non-negative, so
  the cache condition is `≤ 127`.
-/

namespace CW

/-- The graph of `com.ober.ml.cw.graph.Graph`.

Fields mirror the Java fields: `cap` is the Java `size` field (the common
length of the backing arrays `nodeClasses`, `edgeSourceSet`, `edgeSources`,
`edgeWeights`), `nodes` is the `BitSet`, and the per-node entries are
`Option`-valued to model `null` array slots.  The Java `edgeSourceSet`
(an `IntOpenHashSet` kept in sync with `edgeSources` by every mutation)
is modelled by membership in the `edgeSources` list itself. -/
structure Graph where
  cap : ℕ
  nodes : ℕ → Bool
  nodeClasses : ℕ → Option ℤ
  edgeSources : ℕ → Option (List ℕ)
  edgeWeights : ℕ → Option (List ℚ)

/-- `new Graph(initialSize, initialNumEdgesPerNode)`: all array slots null,
empty bit set.  (`initialNumEdgesPerNode` only pre-sizes `ArrayList`s and is
behaviourally irrelevant, so it is not carried.) -/
def Graph.empty (initialSize : ℕ) : Graph :=
  { cap := initialSize
    nodes := fun _ => false
    nodeClasses := fun _ => none
    edgeSources := fun _ => none
    edgeWeights := fun _ => none }

/-- `Graph.ensureCapacity`. -/
def Graph.ensureCapacity (g : Graph) (minSize : ℕ) : Graph :=
  if minSize > g.cap then { g with cap := max minSize (g.cap * 2) } else g

/-- The neighbour list of `v` as read through `getD`: the Java code reads
`edgeSources[v]` only where it is known non-null; a `null` slot reads as `[]`
in the places this abbreviation is used. -/
def Graph.srcList (g : Graph) (v : ℕ) : List ℕ :=
  (g.edgeSources v).getD []

/-- The weight list of `v` (see `Graph.srcList`). -/
def Graph.wtList (g : Graph) (v : ℕ) : List ℚ :=
  (g.edgeWeights v).getD []

/-- `Graph.addNode(Integer node)` (the 1-argument overload, the only one this
program calls). -/
def Graph.addNode (g : Graph) (node : ℕ) : Graph :=
  let g1 := g.ensureCapacity (node + 1)
  if g1.nodes node then g1
  else
    { g1 with
      nodes := Function.update g1.nodes node true
      edgeSources := Function.update g1.edgeSources node (some [])
      edgeWeights := Function.update g1.edgeWeights node (some []) }

/-- One direction of `Graph.addEdge`: the block
`if (edgeSourceSet[from].add(to)) { edgeSources[from].add(to);
edgeWeights[from].add(weight); }` — the hash-set `add` returns `true`
exactly when `to` was absent. -/
def Graph.addHalf (g : Graph) (u v : ℕ) (w : ℚ) : Graph :=
  if v ∈ g.srcList u then g
  else
    { g with
      edgeSources := Function.update g.edgeSources u (some (g.srcList u ++ [v]))
      edgeWeights := Function.update g.edgeWeights u (some (g.wtList u ++ [w])) }

/-- `Graph.addEdge(Integer from, Integer to, Float weight)`.

The guard in the Java source is `if (from != to)`, a **reference**
comparison of the two boxed `Integer` arguments.  Throughout this program
the arguments are autoboxed primitives (or boxes created by such a call),
so the two references coincide exactly when the values are equal and lie in
the `Integer.valueOf` cache, i.e. (for non-negative ids) are `≤ 127`. -/
def Graph.addEdge (g : Graph) (u v : ℕ) (w : ℚ) : Graph :=
  if u = v ∧ u ≤ 127 then g
  else (((g.addNode u).addNode v).addHalf u v w).addHalf v u w

/-- First-match lookup over paired (neighbour, weight) entries, returning `0`
when no entry matches: the loop body of `Graph.getEdgeWeight`. -/
def lookupW (l : List (ℕ × ℚ)) (v : ℕ) : ℚ :=
  ((l.find? fun p => p.1 == v).map Prod.snd).getD 0

/-- `Graph.getEdgeWeight(from, to)`.

`none` models an escaping exception: `ArrayIndexOutOfBoundsException` when
`from` is outside the backing arrays, `NullPointerException` when
`edgeSources[from]` is null (a node never added).  The two backing lists
always have equal length in any reachable graph, so the `zip` pairing is
exact. -/
def Graph.getEdgeWeight? (g : Graph) (u v : ℕ) : Option ℚ :=
  if u < g.cap then
    match g.edgeSources u, g.edgeWeights u with
    | some ss, some ws => some (lookupW (ss.zip ws) v)
    | _, _ => none
  else none

/-- `Graph.getNeighbors(node)`: returns the empty list for a null slot,
throws (`none`) past the end of the backing array. -/
def Graph.getNeighbors? (g : Graph) (v : ℕ) : Option (List ℕ) :=
  if v < g.cap then some (g.srcList v) else none

/-- `Graph.getEdges(node)` for an in-capacity node: the list of
`(neighbour, weight)` pairs in list order. -/
def Graph.edgePairs (g : Graph) (v : ℕ) : List (ℕ × ℚ) :=
  (g.srcList v).zip (g.wtList v)

/-- `Graph.getNodes()`: all set bits below the backing-array length
(the Java loop runs `node < size` over the `BitSet`). -/
def Graph.getNodes (g : Graph) : List ℕ :=
  (List.range g.cap).filter fun v => g.nodes v

/-- `Graph.getNodeClass(node)`: null (`none`) past the array end. -/
def Graph.getNodeClass (g : Graph) (v : ℕ) : Option ℤ :=
  if v < g.cap then g.nodeClasses v else none

/-- `Graph.setNodeClass(node, c)`: silently ignored past the array end. -/
def Graph.setNodeClass (g : Graph) (v : ℕ) (c : Option ℤ) : Graph :=
  if v < g.cap then { g with nodeClasses := Function.update g.nodeClasses v c }
  else g

/-- Stable sort of paired (neighbour, weight) entries by ascending weight:
`Graph.sortEdges` sorts an index array with `Arrays.sort` (a stable merge
sort) under the comparator `Float.compare(weights.get(i1), weights.get(i2))`
and rebuilds both lists through it, which is exactly a stable sort of the
zipped pairs on the weight component. -/
def sortPairs (l : List (ℕ × ℚ)) : List (ℕ × ℚ) :=
  l.mergeSort fun a b => decide (a.2 ≤ b.2)

/-- `Graph.sortEdges()`: every non-null slot below the array length is
re-ordered by ascending weight, sources and weights in tandem. -/
def Graph.sortEdges (g : Graph) : Graph :=
  { g with
    edgeSources := fun v =>
      if v < g.cap ∧ (g.edgeSources v).isSome then
        some ((sortPairs (g.edgePairs v)).map Prod.fst)
      else g.edgeSources v
    edgeWeights := fun v =>
      if v < g.cap ∧ (g.edgeSources v).isSome then
        some ((sortPairs (g.edgePairs v)).map Prod.snd)
      else g.edgeWeights v }

/-- Graphs reachable by a sequence of `addEdge` calls from a freshly
constructed graph (this is how both `WSI.loadDistributedGraph` and the
ego-network builder `createTokenGraph` build every graph they mutate). -/
inductive Built : Graph → Prop
  | init (n : ℕ) : Built (Graph.empty n)
  | step {g : Graph} (u v : ℕ) (w : ℚ) : Built g → Built (g.addEdge u v w)

/-- Invariant of every graph reachable by `addEdge` calls: flag/null
correspondence, paired list lengths, adjacency symmetry and weight
symmetry. -/
structure GInv (g : Graph) : Prop where
  flagNone : ∀ x, g.nodes x = false → g.edgeSources x = none ∧ g.edgeWeights x = none
  lenEq : ∀ x, (g.srcList x).length = (g.wtList x).length
  symmAdj : ∀ a b, b ∈ g.srcList a ↔ a ∈ g.srcList b
  symW : ∀ a b, b ∈ g.srcList a →
    lookupW (g.edgePairs a) b = lookupW (g.edgePairs b) a

/-! ### `WSI.Worker`: cluster extraction and Chinese-Whispers propagation

The per-node label of the ego graph is consulted through a plain
`classOf : ℕ → ℤ`: every node of the ego network has been labelled by the
initialisation loop of `chineseWhispers` before `findClusters` runs, and the
Java `Integer` label objects with equal values are reference-identical there
(labels originate from one autobox per value and are copied by reference
through the `HashMap` keys), so the `==` comparisons in `findClusters`
behave as value comparisons. -/

/-- A cluster record as produced by `WSI.Worker.findClusters`: base node,
sense id and the member list (`HashSet<ClusterMember>` has reference
`equals`, and each `addMember` call inserts a fresh object, so it holds
exactly the inserted `(node, weights.get(node))` pairs; `weights.get`
returns `null` (`none`) for an absent key). -/
structure Cluster where
  node : ℤ
  sense : ℤ
  members : List (ℕ × Option ℚ)

/-- The inner `for (Integer node : nodes)` pass of `findClusters`: state is
the running `currentClass` (sentinel `0`), the member list of the cluster
under construction, and `toRemove`. -/
def fcPass (classOf : ℕ → ℤ) (wt : ℕ → Option ℚ) :
    List ℕ → ℤ → List (ℕ × Option ℚ) → List ℕ →
      List (ℕ × Option ℚ) × List ℕ
  | [], _, members, toRemove => (members, toRemove)
  | n :: rest, cur, members, toRemove =>
    let cur' := if cur = 0 then classOf n else cur
    if classOf n = cur' then
      fcPass classOf wt rest cur' (members ++ [(n, wt n)]) (toRemove ++ [n])
    else
      fcPass classOf wt rest cur' members toRemove

/-- The outer `while (nodes.size() > 0)` loop of `findClusters`.  The node
set is carried as a list in iteration order (`HashSet` iteration order is
unspecified; all theorems quantify over it).  `fuel` bounds the number of
loop iterations: each pass removes at least the first node, so
`nodes.length` suffices (see `findClusters`); the published-cluster
properties proved below hold for every fuel.  A cluster is created with the
**current** value of `sense` and published after the `sense++`, so the
record carries the pre-increment value. -/
def fcLoop (classOf : ℕ → ℤ) (wt : ℕ → Option ℚ) (minCluster : ℤ)
    (baseNode : ℤ) : ℕ → List ℕ → ℤ → List Cluster
  | 0, _, _ => []
  | fuel + 1, nodes, sense =>
    if nodes.isEmpty then []
    else
      let pass := fcPass classOf wt nodes 0 [] []
      let nodes' := nodes.filter fun x => !pass.2.contains x
      if minCluster ≤ (pass.1.length : ℤ) then
        ⟨baseNode, sense, pass.1⟩ ::
          fcLoop classOf wt minCluster baseNode fuel nodes' (sense + 1)
      else
        fcLoop classOf wt minCluster baseNode fuel nodes' sense

/-- `WSI.Worker.findClusters(baseNode, tokenGraph)`, parameterised by the
final labelling `classOf` of the ego graph and the base node's weight map
`wt` (the `HashMap` built from `distributedGraph.getEdges(baseNode)`).
Returns the sequence of clusters put on the queue, in publication order. -/
def findClusters (classOf : ℕ → ℤ) (wt : ℕ → Option ℚ) (minCluster : ℤ)
    (baseNode : ℤ) (nodes : List ℕ) : List Cluster :=
  fcLoop classOf wt minCluster baseNode nodes.length nodes 0

/-- Per-class weight-sum accumulation of one propagation step: the Java
`HashMap<Integer, Float> classes`, modelled as an association list in
first-insertion order (the `HashMap` iteration order is unspecified; the
claims proved below do not depend on it).  A key is the (possibly null)
class of a neighbour. -/
def accumClasses (g : Graph) : List (ℕ × ℚ) → List (Option ℤ × ℚ) →
    List (Option ℤ × ℚ)
  | [], acc => acc
  | (nb, w) :: rest, acc =>
    let cls := g.getNodeClass nb
    if (acc.find? fun p => p.1 == cls).isSome then
      accumClasses g rest (acc.map fun p => if p.1 == cls then (p.1, p.2 + w) else p)
    else
      accumClasses g rest (acc ++ [(cls, w)])

/-- `float max = -10000f; Integer maxClass = 0; for (c : classes.keySet())
if (classes.get(c) > max) { max = …; maxClass = c; }`. -/
def pickMax : List (Option ℤ × ℚ) → ℚ → Option ℤ → Option ℤ
  | [], _, best => best
  | (c, s) :: rest, mx, best =>
    if s > mx then pickMax rest s c else pickMax rest mx best

/-- The body of the propagation sweep for one node `x`. -/
def cwNode (g : Graph) (x : ℕ) : Graph × Bool :=
  let classes := accumClasses g (g.edgePairs x) []
  let winner := pickMax classes (-10000) (some 0)
  if g.getNodeClass x ≠ winner then (g.setNodeClass x winner, true)
  else (g, false)

/-- One full sweep of the shuffled node list, threading the `changed`
flag. -/
def cwSweep : Graph → List ℕ → Bool → Graph × Bool
  | g, [], ch => (g, ch)
  | g, x :: rest, ch =>
    let r := cwNode g x
    cwSweep r.1 rest (ch || r.2)

/-- The bounded iteration `for (z = 0; z < maxIterations; z++) { if
(!changed) break; … }` of `chineseWhispers`.  `shuffle z` models the fresh
`Collections.shuffle` of iteration `z` (an arbitrary reordering oracle).
The second component counts the sweeps actually executed. -/
def cwLoop (shuffle : ℕ → List ℕ → List ℕ) : Graph → Bool → ℕ → ℕ → Graph × ℕ
  | g, _, _, 0 => (g, 0)
  | g, changed, z, rem + 1 =>
    if changed then
      let r := cwSweep g (shuffle z g.getNodes) false
      let rest := cwLoop shuffle r.1 r.2 (z + 1) rem
      (rest.1, rest.2 + 1)
    else (g, 0)

/-- The label initialisation `for (i = 1; i < n.size()+1; i++)
setNodeClass(n.get(i-1), i)`. -/
def cwInit : Graph → List ℕ → ℤ → Graph
  | g, [], _ => g
  | g, n :: rest, i => cwInit (g.setNodeClass n (some i)) rest (i + 1)

/-- `WSI.Worker.chineseWhispers(tokenNetwork)`: initialise labels `1, 2, …`
over the node list, then propagate for at most `maxIterations` sweeps,
stopping early on a sweep with no label change.  Returns the final graph
and the number of sweeps executed. -/
def chineseWhispers (shuffle : ℕ → List ℕ → List ℕ) (maxIterations : ℕ)
    (g : Graph) : Graph × ℕ :=
  cwLoop shuffle (cwInit g g.getNodes 1) true 0 maxIterations

end CW

namespace Tok

/-! ### `tokens_inner.pyx`: top-k partition and edge emission

C `int` indices are modelled as `ℤ` (the running pointer `r` of
`argpartition` can reach `from_i - 1`, and the emission slot index can be
negative).  The `similar` scores are `ℚ`: `argpartition` only compares
scores, so any linearly ordered carrier is faithful.  The index array
`nearest` is modelled as a function `ℤ → ℤ` updated pointwise. -/

/-- The three-assignment swap `temp = nearest[w]; nearest[w] = nearest[r];
nearest[r] = temp`. -/
def fswap (f : ℤ → ℤ) (r w : ℤ) : ℤ → ℤ :=
  Function.update (Function.update f w (f r)) r (f w)

/-- The inner dual-pointer loop `while (r < w) …` of `argpartition`.
`fuel` bounds the iterations; the loop provably exits within
`(w - r).toNat + 1` steps (`apInner_completes`).  The `Bool` records that
the loop condition was actually exited (rather than fuel running out). -/
def apInner (sim : ℤ → ℚ) (mid : ℚ) : (ℤ → ℤ) → ℤ → ℤ → ℕ →
    ((ℤ → ℤ) × ℤ × ℤ) × Bool
  | f, r, w, 0 => ((f, r, w), decide (w ≤ r))
  | f, r, w, fuel + 1 =>
    if r < w then
      if sim (f r) ≤ mid then apInner sim mid (fswap f r w) r (w - 1) fuel
      else apInner sim mid f (r + 1) w fuel
    else ((f, r, w), true)

/-- The outer loop `while (from_i < to_i) …` of `argpartition`: pick the
midpoint score as pivot, run the inner partition loop, adjust `r`, and
recurse into the side containing `k`.  The midpoint index `(r + w) / 2` is
C integer division; all its operands are non-negative in every reachable
state of the program's calls.  The `Bool` records completion of the loop
within the given fuel. -/
def apOuter (sim : ℤ → ℚ) (k : ℤ) : (ℤ → ℤ) → ℤ → ℤ → ℕ → (ℤ → ℤ) × Bool
  | f, fromI, toI, 0 => (f, decide (toI ≤ fromI))
  | f, fromI, toI, fuel + 1 =>
    if fromI < toI then
      let mid := sim (f ((fromI + toI) / 2))
      let inner := apInner sim mid f fromI toI ((toI - fromI).toNat + 1)
      let f1 := inner.1.1
      let r1 := inner.1.2.1
      let r2 := if sim (f1 r1) < mid then r1 - 1 else r1
      if k ≤ r2 then apOuter sim k f1 fromI r2 fuel
      else apOuter sim k f1 (r2 + 1) toI fuel
    else (f, true)

/-- `argpartition(nearest, similar, k, size)`.  The loop terminates on
every input; `(size + 2)²` fuel covers every concrete run handled below,
and the returned flag records that the loop did exit. -/
def argpartition (sim : ℤ → ℚ) (k size : ℤ) (f : ℤ → ℤ) : (ℤ → ℤ) × Bool :=
  apOuter sim k f 0 (size - 1) ((size.toNat + 2) * (size.toNat + 2))

/-- Scenario S1's score array (0.9, 0.1, 0.5, 0.7, 0.2) as a function on
indices. -/
def s1score : ℤ → ℚ := fun p =>
  if p = 0 then mkRat 9 10 else if p = 1 then mkRat 1 10
  else if p = 2 then mkRat 1 2 else if p = 3 then mkRat 7 10 else mkRat 1 5

/-- The window `nearest[lo], nearest[lo+1], …, nearest[lo+len-1]` of the
functional array view: used to state that `argpartition` permutes the array
contents in place. -/
def mapRange (f : ℤ → ℤ) (lo : ℤ) (len : ℕ) : List ℤ :=
  (List.range len).map fun i : ℕ => f (lo + (i : ℤ))

/-- One `GraphEdge` struct of the emission buffer. -/
structure GraphEdge where
  fromIndex : ℤ
  toIndex : ℤ
  weight : ℚ
deriving DecidableEq

/-- One iteration `j` of the emission loop of `calculate_edges`:
```
to_index = c_nearest[j]
if to_index == start_index + i: offset = -1
edges[(start_index+i)*n+j+offset] = (start_index+i, to_index, c_sim[to_index])
```
(state: current `offset` and the edge buffer). -/
def emitStep (t : ℤ) (n : ℕ) (nearest : ℤ → ℤ) (sim : ℤ → ℚ)
    (st : ℤ × (ℤ → GraphEdge)) (j : ℕ) : ℤ × (ℤ → GraphEdge) :=
  let toIndex := nearest j
  let offset := if toIndex = t then -1 else st.1
  (offset, Function.update st.2 (t * n + j + offset) ⟨t, toIndex, sim toIndex⟩)

/-- The emission loop `for j in range(n+1)` of `calculate_edges` for the
row of token `t`, starting with `offset = 0`.  The global edge buffer is a
total map `ℤ → GraphEdge` so that writes below or above the token's slot
range are recorded faithfully. -/
def emitRow (t : ℤ) (n : ℕ) (nearest : ℤ → ℤ) (sim : ℤ → ℚ)
    (edges : ℤ → GraphEdge) : ℤ → GraphEdge :=
  ((List.range (n + 1)).foldl (emitStep t n nearest sim) (0, edges)).2

/-- The per-row tail of `calculate_edges` for token `t`: reset the index
buffer to `0, 1, …, N−1` (`memcpy` from `nearest_temp`), partition the
indices by the similarity row with `k = n + 1`, and emit. -/
def processRow (sim : ℤ → ℚ) (nTokens : ℤ) (n : ℕ) (t : ℤ)
    (edges : ℤ → GraphEdge) : ℤ → GraphEdge :=
  emitRow t n (argpartition sim (n + 1) nTokens fun p => p).1 sim edges

end Tok

namespace CW

/-! ### Basic lemmas about the graph operations -/

theorem Graph.ensureCapacity_nodes (g : Graph) (m : ℕ) :
    (g.ensureCapacity m).nodes = g.nodes := by
  unfold Graph.ensureCapacity; split <;> rfl

theorem Graph.ensureCapacity_edgeSources (g : Graph) (m : ℕ) :
    (g.ensureCapacity m).edgeSources = g.edgeSources := by
  unfold Graph.ensureCapacity; split <;> rfl

theorem Graph.ensureCapacity_edgeWeights (g : Graph) (m : ℕ) :
    (g.ensureCapacity m).edgeWeights = g.edgeWeights := by
  unfold Graph.ensureCapacity; split <;> rfl

theorem Graph.le_ensureCapacity_cap (g : Graph) (m : ℕ) :
    m ≤ (g.ensureCapacity m).cap := by
  unfold Graph.ensureCapacity; split
  · exact le_max_left _ _
  · omega

theorem Graph.cap_le_ensureCapacity_cap (g : Graph) (m : ℕ) :
    g.cap ≤ (g.ensureCapacity m).cap := by
  unfold Graph.ensureCapacity; split
  · exact le_trans (by omega) (le_max_left _ _)
  · exact le_refl _

theorem Graph.addNode_nodes (g : Graph) (n u : ℕ) :
    (g.addNode n).nodes u = (g.nodes u || decide (u = n)) := by
  simp only [Graph.addNode]
  split
  · next h =>
    rw [Graph.ensureCapacity_nodes] at h
    by_cases huv : u = n
    · subst huv; simp [Graph.ensureCapacity_nodes, h]
    · simp [Graph.ensureCapacity_nodes, huv]
  · by_cases huv : u = n
    · subst huv; simp [Graph.ensureCapacity_nodes]
    · simp [Graph.ensureCapacity_nodes, Function.update_noteq huv, huv]

theorem Graph.addNode_cap_le (g : Graph) (n : ℕ) :
    g.cap ≤ (g.addNode n).cap := by
  simp only [Graph.addNode]
  split
  · exact g.cap_le_ensureCapacity_cap _
  · exact g.cap_le_ensureCapacity_cap _

theorem Graph.lt_addNode_cap (g : Graph) (n : ℕ) :
    n < (g.addNode n).cap := by
  have h := g.le_ensureCapacity_cap (n + 1)
  simp only [Graph.addNode]
  split
  · omega
  · simpa using h

/-- On a slot whose null-ness matches its bit-set flag, `addNode` does not
change the neighbour and weight lists as read through `getD`. -/
theorem Graph.addNode_srcList (g : Graph) (n : ℕ)
    (h : g.nodes n = false → g.edgeSources n = none ∧ g.edgeWeights n = none)
    (u : ℕ) :
    (g.addNode n).srcList u = g.srcList u ∧ (g.addNode n).wtList u = g.wtList u := by
  simp only [Graph.addNode]
  split
  · simp [Graph.srcList, Graph.wtList, Graph.ensureCapacity_edgeSources,
      Graph.ensureCapacity_edgeWeights]
  · next hflag =>
    rw [Graph.ensureCapacity_nodes] at hflag
    by_cases huv : u = n
    · subst huv
      have := h (by simpa using hflag)
      simp [Graph.srcList, Graph.wtList, Graph.ensureCapacity_edgeSources,
        Graph.ensureCapacity_edgeWeights, this.1, this.2]
    · simp [Graph.srcList, Graph.wtList, Graph.ensureCapacity_edgeSources,
        Graph.ensureCapacity_edgeWeights, Function.update_noteq huv]

theorem Graph.addNode_edgeSources_of_ne (g : Graph) (n u : ℕ) (h : u ≠ n) :
    (g.addNode n).edgeSources u = g.edgeSources u ∧
      (g.addNode n).edgeWeights u = g.edgeWeights u := by
  simp only [Graph.addNode]
  split
  · simp [Graph.ensureCapacity_edgeSources, Graph.ensureCapacity_edgeWeights]
  · simp [Graph.ensureCapacity_edgeSources, Graph.ensureCapacity_edgeWeights,
      Function.update_noteq h]

theorem Graph.addHalf_nodes (g : Graph) (u v : ℕ) (w : ℚ) :
    (g.addHalf u v w).nodes = g.nodes := by
  unfold Graph.addHalf; split <;> rfl

theorem Graph.addHalf_cap (g : Graph) (u v : ℕ) (w : ℚ) :
    (g.addHalf u v w).cap = g.cap := by
  unfold Graph.addHalf; split <;> rfl

theorem Graph.addHalf_of_mem (g : Graph) (u v : ℕ) (w : ℚ)
    (h : v ∈ g.srcList u) : g.addHalf u v w = g := by
  unfold Graph.addHalf
  simp [h]

theorem Graph.addHalf_srcList_self (g : Graph) (u v : ℕ) (w : ℚ)
    (h : v ∉ g.srcList u) :
    (g.addHalf u v w).srcList u = g.srcList u ++ [v] ∧
      (g.addHalf u v w).wtList u = g.wtList u ++ [w] := by
  rw [Graph.srcList] at h
  unfold Graph.addHalf
  simp [h, Graph.srcList, Graph.wtList]

theorem Graph.addHalf_srcList_other (g : Graph) (u v x : ℕ) (w : ℚ)
    (h : x ≠ u) :
    (g.addHalf u v w).srcList x = g.srcList x ∧
      (g.addHalf u v w).wtList x = g.wtList x := by
  unfold Graph.addHalf
  split
  · exact ⟨rfl, rfl⟩
  · simp [Graph.srcList, Graph.wtList, Function.update_noteq h]

theorem Graph.addHalf_edgeSources_other (g : Graph) (u v x : ℕ) (w : ℚ)
    (h : x ≠ u) :
    (g.addHalf u v w).edgeSources x = g.edgeSources x ∧
      (g.addHalf u v w).edgeWeights x = g.edgeWeights x := by
  unfold Graph.addHalf
  split
  · exact ⟨rfl, rfl⟩
  · simp [Function.update_noteq h]

/-! ### Lookup lemmas -/

theorem lookupW_not_mem (l : List (ℕ × ℚ)) (v : ℕ)
    (h : ∀ p ∈ l, p.1 ≠ v) : lookupW l v = 0 := by
  unfold lookupW
  rw [List.find?_eq_none.mpr]
  · rfl
  · intro p hp
    simpa using h p hp

theorem lookupW_append_last (l : List (ℕ × ℚ)) (v : ℕ) (w : ℚ)
    (h : ∀ p ∈ l, p.1 ≠ v) : lookupW (l ++ [(v, w)]) v = w := by
  unfold lookupW
  rw [List.find?_append, List.find?_eq_none.mpr]
  · simp
  · intro p hp
    simpa using h p hp

theorem lookupW_append_other (l : List (ℕ × ℚ)) (v x : ℕ) (w : ℚ)
    (h : x ≠ v) : lookupW (l ++ [(v, w)]) x = lookupW l x := by
  unfold lookupW
  rw [List.find?_append]
  cases hf : l.find? fun p => p.1 == x with
  | some p => simp [Option.or]
  | none => simp [Ne.symm h, Option.or]

theorem edgePairs_fst_ne (g : Graph) (u v : ℕ) (h : v ∉ g.srcList u) :
    ∀ p ∈ g.edgePairs u, p.1 ≠ v := by
  rintro ⟨a, b⟩ hp rfl
  exact h (List.of_mem_zip hp).1

/-! ### Characterisation of `addEdge` -/

theorem Graph.addHalf_edgeSources_self (g : Graph) (u v : ℕ) (w : ℚ)
    (h : v ∉ g.srcList u) :
    (g.addHalf u v w).edgeSources u = some (g.srcList u ++ [v]) ∧
      (g.addHalf u v w).edgeWeights u = some (g.wtList u ++ [w]) := by
  rw [Graph.srcList] at h
  unfold Graph.addHalf
  simp [h, Graph.srcList, Graph.wtList]

theorem Graph.addNode2_srcList (g : Graph)
    (hf : ∀ x, g.nodes x = false → g.edgeSources x = none ∧ g.edgeWeights x = none)
    (u v x : ℕ) :
    ((g.addNode u).addNode v).srcList x = g.srcList x ∧
      ((g.addNode u).addNode v).wtList x = g.wtList x := by
  have h1 := g.addNode_srcList u (hf u) x
  have hf2 : (g.addNode u).nodes v = false →
      (g.addNode u).edgeSources v = none ∧ (g.addNode u).edgeWeights v = none := by
    intro hfl
    rw [Graph.addNode_nodes] at hfl
    have hvu : v ≠ u := by
      intro hvu
      simp [hvu] at hfl
    have hnv : g.nodes v = false := by
      rcases Bool.or_eq_false_iff.mp hfl with ⟨h1, _⟩
      exact h1
    have he := g.addNode_edgeSources_of_ne u v hvu
    rw [he.1, he.2]
    exact hf v hnv
  have h2 := (g.addNode u).addNode_srcList v hf2 x
  exact ⟨h2.1.trans h1.1, h2.2.trans h1.2⟩

theorem Graph.addNode2_nodes (g : Graph) (u v x : ℕ) :
    ((g.addNode u).addNode v).nodes x
      = (g.nodes x || decide (x = u) || decide (x = v)) := by
  rw [Graph.addNode_nodes, Graph.addNode_nodes]

/-- Slots other than the two endpoints are not touched by `addEdge`. -/
theorem Graph.addEdge_untouched (g : Graph) (u v x : ℕ) (w : ℚ)
    (hxu : x ≠ u) (hxv : x ≠ v) :
    (g.addEdge u v w).edgeSources x = g.edgeSources x ∧
      (g.addEdge u v w).edgeWeights x = g.edgeWeights x ∧
      (g.addEdge u v w).nodes x = g.nodes x := by
  unfold Graph.addEdge
  split
  · exact ⟨rfl, rfl, rfl⟩
  · have h1 := g.addNode_edgeSources_of_ne u x hxu
    have h2 := (g.addNode u).addNode_edgeSources_of_ne v x hxv
    have h3 := ((g.addNode u).addNode v).addHalf_edgeSources_other u v x w hxu
    have h4 := (((g.addNode u).addNode v).addHalf u v w).addHalf_edgeSources_other v u x w hxv
    refine ⟨?_, ?_, ?_⟩
    · rw [h4.1, h3.1, h2.1, h1.1]
    · rw [h4.2, h3.2, h2.2, h1.2]
    · rw [Graph.addHalf_nodes, Graph.addHalf_nodes, Graph.addNode2_nodes]
      simp [hxu, hxv]

/-- If the edge is already present (in both directions), `addEdge` changes no
list: the hash-set guards reject both inserts and `addNode` of a present or
null-flagged node does not alter the `getD` view of any list. -/
theorem Graph.addEdge_srcList_of_mem (g : Graph)
    (hf : ∀ x, g.nodes x = false → g.edgeSources x = none ∧ g.edgeWeights x = none)
    (u v : ℕ) (w : ℚ) (hm : v ∈ g.srcList u) (hmv : u ∈ g.srcList v) (x : ℕ) :
    (g.addEdge u v w).srcList x = g.srcList x ∧
      (g.addEdge u v w).wtList x = g.wtList x := by
  unfold Graph.addEdge
  split
  · exact ⟨rfl, rfl⟩
  · have hA := fun y => g.addNode2_srcList hf u v y
    have hmu' : v ∈ ((g.addNode u).addNode v).srcList u := by rw [(hA u).1]; exact hm
    rw [Graph.addHalf_of_mem _ u v w hmu']
    have hmv' : u ∈ ((g.addNode u).addNode v).srcList v := by rw [(hA v).1]; exact hmv
    rw [Graph.addHalf_of_mem _ v u w hmv']
    exact hA x

/-- Fresh insertion of a proper edge `u ≠ v`: both endpoint lists get the new
entry appended, everything else is untouched. -/
theorem Graph.addEdge_fresh (g : Graph)
    (hf : ∀ x, g.nodes x = false → g.edgeSources x = none ∧ g.edgeWeights x = none)
    (u v : ℕ) (w : ℚ) (huv : u ≠ v)
    (hnu : v ∉ g.srcList u) (hnv : u ∉ g.srcList v) :
    (g.addEdge u v w).edgeSources u = some (g.srcList u ++ [v]) ∧
      (g.addEdge u v w).edgeWeights u = some (g.wtList u ++ [w]) ∧
      (g.addEdge u v w).edgeSources v = some (g.srcList v ++ [u]) ∧
      (g.addEdge u v w).edgeWeights v = some (g.wtList v ++ [w]) ∧
      u < (g.addEdge u v w).cap ∧ v < (g.addEdge u v w).cap ∧
      (g.addEdge u v w).nodes u = true ∧ (g.addEdge u v w).nodes v = true := by
  unfold Graph.addEdge
  rw [if_neg (by simp [huv])]
  have hA := fun y => g.addNode2_srcList hf u v y
  have hnu' : v ∉ ((g.addNode u).addNode v).srcList u := by rw [(hA u).1]; exact hnu
  have hB := ((g.addNode u).addNode v).addHalf_edgeSources_self u v w hnu'
  have hBother := fun y (hy : y ≠ u) =>
    ((g.addNode u).addNode v).addHalf_srcList_other u v y w hy
  have hnv' : u ∉ (((g.addNode u).addNode v).addHalf u v w).srcList v := by
    rw [(hBother v (Ne.symm huv)).1, (hA v).1]; exact hnv
  have hC := (((g.addNode u).addNode v).addHalf u v w).addHalf_edgeSources_self v u w hnv'
  have hCu := (((g.addNode u).addNode v).addHalf u v w).addHalf_edgeSources_other v u u w huv
  have hcap : v < ((g.addNode u).addNode v).cap ∧ u < ((g.addNode u).addNode v).cap := by
    constructor
    · exact (g.addNode u).lt_addNode_cap v
    · exact lt_of_lt_of_le (g.lt_addNode_cap u) ((g.addNode u).addNode_cap_le v)
  refine ⟨?_, ?_, ?_, ?_, ?_, ?_, ?_, ?_⟩
  · rw [hCu.1, hB.1, (hA u).1]
  · rw [hCu.2, hB.2, (hA u).2]
  · rw [hC.1, (hBother v (Ne.symm huv)).1, (hA v).1]
  · rw [hC.2, (hBother v (Ne.symm huv)).2, (hA v).2]
  · rw [Graph.addHalf_cap, Graph.addHalf_cap]; exact hcap.2
  · rw [Graph.addHalf_cap, Graph.addHalf_cap]; exact hcap.1
  · rw [Graph.addHalf_nodes, Graph.addHalf_nodes, Graph.addNode2_nodes]; simp
  · rw [Graph.addHalf_nodes, Graph.addHalf_nodes, Graph.addNode2_nodes]; simp

/-- Fresh insertion of a boxed self-loop (`u = v` with `u` outside the
`Integer` cache): the list of `u` gets one entry `u` appended (the second
hash-set insert is rejected because the first one already put it there). -/
theorem Graph.addEdge_self_fresh (g : Graph)
    (hf : ∀ x, g.nodes x = false → g.edgeSources x = none ∧ g.edgeWeights x = none)
    (u : ℕ) (w : ℚ) (h127 : 127 < u) (hnu : u ∉ g.srcList u) :
    (g.addEdge u u w).edgeSources u = some (g.srcList u ++ [u]) ∧
      (g.addEdge u u w).edgeWeights u = some (g.wtList u ++ [w]) ∧
      u < (g.addEdge u u w).cap ∧ (g.addEdge u u w).nodes u = true := by
  unfold Graph.addEdge
  rw [if_neg (by omega)]
  have hA := fun y => g.addNode2_srcList hf u u y
  have hnu' : u ∉ ((g.addNode u).addNode u).srcList u := by rw [(hA u).1]; exact hnu
  have hB := ((g.addNode u).addNode u).addHalf_edgeSources_self u u w hnu'
  have hBlist := ((g.addNode u).addNode u).addHalf_srcList_self u u w hnu'
  have hmem : u ∈ (((g.addNode u).addNode u).addHalf u u w).srcList u := by
    rw [hBlist.1]; simp
  rw [Graph.addHalf_of_mem _ u u w hmem]
  refine ⟨?_, ?_, ?_, ?_⟩
  · rw [hB.1, (hA u).1]
  · rw [hB.2, (hA u).2]
  · rw [Graph.addHalf_cap]
    exact lt_of_lt_of_le (g.lt_addNode_cap u) ((g.addNode u).addNode_cap_le u)
  · rw [Graph.addHalf_nodes, Graph.addNode2_nodes]; simp

theorem Graph.addEdge_nodes_true (g : Graph) (u v : ℕ) (w : ℚ)
    (h : ¬(u = v ∧ u ≤ 127)) :
    (g.addEdge u v w).nodes u = true ∧ (g.addEdge u v w).nodes v = true := by
  unfold Graph.addEdge
  rw [if_neg h, Graph.addHalf_nodes, Graph.addHalf_nodes, Graph.addNode2_nodes,
    Graph.addNode2_nodes]
  simp

/-! ### The reachability invariant -/

theorem GInv.empty (n : ℕ) : GInv (Graph.empty n) := by
  refine ⟨?_, ?_, ?_, ?_⟩ <;>
    simp [Graph.empty, Graph.srcList, Graph.wtList, Graph.edgePairs]

theorem GInv.addEdge {g : Graph} (hg : GInv g) (u v : ℕ) (w : ℚ) :
    GInv (g.addEdge u v w) := by
  by_cases hguard : u = v ∧ u ≤ 127
  · have hid : g.addEdge u v w = g := by unfold Graph.addEdge; rw [if_pos hguard]
    rw [hid]; exact hg
  · have hnt := g.addEdge_nodes_true u v w hguard
    by_cases hm : v ∈ g.srcList u
    · -- the edge is already present: nothing changes in any list
      have hmv : u ∈ g.srcList v := (hg.symmAdj u v).mp hm
      have hlist := fun x => g.addEdge_srcList_of_mem hg.flagNone u v w hm hmv x
      have hpairs : ∀ x, (g.addEdge u v w).edgePairs x = g.edgePairs x := by
        intro x; unfold Graph.edgePairs; rw [(hlist x).1, (hlist x).2]
      refine ⟨?_, ?_, ?_, ?_⟩
      · intro x hx
        by_cases hxu : x = u
        · rw [hxu] at hx; rw [hnt.1] at hx; cases hx
        by_cases hxv : x = v
        · rw [hxv] at hx; rw [hnt.2] at hx; cases hx
        have hu := g.addEdge_untouched u v x w hxu hxv
        rw [hu.1, hu.2.1]
        rw [hu.2.2] at hx
        exact hg.flagNone x hx
      · intro x; rw [(hlist x).1, (hlist x).2]; exact hg.lenEq x
      · intro a b; rw [(hlist a).1, (hlist b).1]; exact hg.symmAdj a b
      · intro a b hb
        rw [(hlist a).1] at hb
        rw [hpairs a, hpairs b]
        exact hg.symW a b hb
    · by_cases huv : u = v
      · -- boxed self-loop insertion (u = v, u > 127)
        subst huv
        have h127 : 127 < u := by
          by_contra hle
          exact hguard ⟨rfl, by omega⟩
        obtain ⟨hsrc, hwt, _, _⟩ := g.addEdge_self_fresh hg.flagNone u w h127 hm
        have hslu : (g.addEdge u u w).srcList u = g.srcList u ++ [u] := by
          rw [Graph.srcList, hsrc]; rfl
        have hwlu : (g.addEdge u u w).wtList u = g.wtList u ++ [w] := by
          rw [Graph.wtList, hwt]; rfl
        have hsl : ∀ x, x ≠ u → (g.addEdge u u w).srcList x = g.srcList x ∧
            (g.addEdge u u w).wtList x = g.wtList x := by
          intro x hx
          have h := g.addEdge_untouched u u x w hx hx
          rw [Graph.srcList, Graph.wtList, h.1, h.2.1]
          exact ⟨rfl, rfl⟩
        have hpu : (g.addEdge u u w).edgePairs u = g.edgePairs u ++ [(u, w)] := by
          unfold Graph.edgePairs
          rw [hslu, hwlu, List.zip_append (hg.lenEq u)]; rfl
        have hpo : ∀ x, x ≠ u → (g.addEdge u u w).edgePairs x = g.edgePairs x := by
          intro x hx; unfold Graph.edgePairs; rw [(hsl x hx).1, (hsl x hx).2]
        have keysU := edgePairs_fst_ne g u u hm
        refine ⟨?_, ?_, ?_, ?_⟩
        · intro x hx
          by_cases hxu : x = u
          · rw [hxu] at hx; rw [hnt.1] at hx; cases hx
          have h := g.addEdge_untouched u u x w hxu hxu
          rw [h.1, h.2.1]
          rw [h.2.2] at hx
          exact hg.flagNone x hx
        · intro x
          by_cases hxu : x = u
          · rw [hxu, hslu, hwlu]; simp [hg.lenEq u]
          · rw [(hsl x hxu).1, (hsl x hxu).2]; exact hg.lenEq x
        · intro a b
          by_cases hau : a = u <;> by_cases hbu : b = u
          · rw [hau, hbu]
          · rw [hau, hslu, (hsl b hbu).1]
            simp only [List.mem_append, List.mem_singleton]
            constructor
            · rintro (hb | hb)
              · exact (hg.symmAdj u b).mp hb
              · exact absurd hb hbu
            · intro hb; exact Or.inl ((hg.symmAdj u b).mpr hb)
          · rw [hbu, hslu, (hsl a hau).1]
            simp only [List.mem_append, List.mem_singleton]
            constructor
            · intro hb; exact Or.inl ((hg.symmAdj a u).mp hb)
            · rintro (hb | hb)
              · exact (hg.symmAdj a u).mpr hb
              · exact absurd hb hau
          · rw [(hsl a hau).1, (hsl b hbu).1]; exact hg.symmAdj a b
        · intro a b hb
          by_cases hau : a = u <;> by_cases hbu : b = u
          · rw [hau, hbu]
          · rw [hau] at hb ⊢
            rw [hslu] at hb
            have hb' : b ∈ g.srcList u := by
              rcases List.mem_append.mp hb with h | h
              · exact h
              · exact absurd (List.mem_singleton.mp h) hbu
            rw [hpu, lookupW_append_other _ _ _ _ hbu, (hpo b hbu)]
            exact hg.symW u b hb'
          · rw [hbu] at hb ⊢
            rw [(hsl a hau).1] at hb
            rw [hpu, lookupW_append_other _ _ _ _ hau, (hpo a hau)]
            exact hg.symW a u hb
          · rw [(hsl a hau).1] at hb
            rw [(hpo a hau), (hpo b hbu)]
            exact hg.symW a b hb
      · -- fresh proper edge
        have hnv : u ∉ g.srcList v := fun hx => hm ((hg.symmAdj v u).mp hx)
        obtain ⟨hsU, hwU, hsV, hwV, _, _, _, _⟩ :=
          g.addEdge_fresh hg.flagNone u v w huv hm hnv
        have hslu : (g.addEdge u v w).srcList u = g.srcList u ++ [v] := by
          rw [Graph.srcList, hsU]; rfl
        have hwlu : (g.addEdge u v w).wtList u = g.wtList u ++ [w] := by
          rw [Graph.wtList, hwU]; rfl
        have hslv : (g.addEdge u v w).srcList v = g.srcList v ++ [u] := by
          rw [Graph.srcList, hsV]; rfl
        have hwlv : (g.addEdge u v w).wtList v = g.wtList v ++ [w] := by
          rw [Graph.wtList, hwV]; rfl
        have hsl : ∀ x, x ≠ u → x ≠ v → (g.addEdge u v w).srcList x = g.srcList x ∧
            (g.addEdge u v w).wtList x = g.wtList x := by
          intro x hxu hxv
          have h := g.addEdge_untouched u v x w hxu hxv
          rw [Graph.srcList, Graph.wtList, h.1, h.2.1]
          exact ⟨rfl, rfl⟩
        have hpu : (g.addEdge u v w).edgePairs u = g.edgePairs u ++ [(v, w)] := by
          unfold Graph.edgePairs
          rw [hslu, hwlu, List.zip_append (hg.lenEq u)]; rfl
        have hpv : (g.addEdge u v w).edgePairs v = g.edgePairs v ++ [(u, w)] := by
          unfold Graph.edgePairs
          rw [hslv, hwlv, List.zip_append (hg.lenEq v)]; rfl
        have hpo : ∀ x, x ≠ u → x ≠ v → (g.addEdge u v w).edgePairs x = g.edgePairs x := by
          intro x hxu hxv
          unfold Graph.edgePairs
          rw [(hsl x hxu hxv).1, (hsl x hxu hxv).2]
        have keysU := edgePairs_fst_ne g u v hm
        have keysV := edgePairs_fst_ne g v u hnv
        refine ⟨?_, ?_, ?_, ?_⟩
        · intro x hx
          by_cases hxu : x = u
          · rw [hxu] at hx; rw [hnt.1] at hx; cases hx
          by_cases hxv : x = v
          · rw [hxv] at hx; rw [hnt.2] at hx; cases hx
          have h := g.addEdge_untouched u v x w hxu hxv
          rw [h.1, h.2.1]
          rw [h.2.2] at hx
          exact hg.flagNone x hx
        · intro x
          by_cases hxu : x = u
          · rw [hxu, hslu, hwlu]; simp [hg.lenEq u]
          by_cases hxv : x = v
          · rw [hxv, hslv, hwlv]; simp [hg.lenEq v]
          rw [(hsl x hxu hxv).1, (hsl x hxu hxv).2]; exact hg.lenEq x
        · intro a b
          by_cases hau : a = u <;> by_cases hav : a = v
          · exact absurd (hau.symm.trans hav) huv
          · rw [hau]
            by_cases hbu : b = u
            · rw [hbu]
            by_cases hbv : b = v
            · rw [hbv, hslu, hslv]; simp
            rw [hslu, (hsl b hbu hbv).1]
            simp only [List.mem_append, List.mem_singleton]
            constructor
            · rintro (hb | hb)
              · exact (hg.symmAdj u b).mp hb
              · exact absurd hb hbv
            · intro hb; exact Or.inl ((hg.symmAdj u b).mpr hb)
          · rw [hav]
            by_cases hbu : b = u
            · rw [hbu, hslu, hslv]; simp
            by_cases hbv : b = v
            · rw [hbv]
            rw [hslv, (hsl b hbu hbv).1]
            simp only [List.mem_append, List.mem_singleton]
            constructor
            · rintro (hb | hb)
              · exact (hg.symmAdj v b).mp hb
              · exact absurd hb hbu
            · intro hb; exact Or.inl ((hg.symmAdj v b).mpr hb)
          · by_cases hbu : b = u
            · rw [hbu, hslu, (hsl a hau hav).1]
              simp only [List.mem_append, List.mem_singleton]
              constructor
              · intro hb; exact Or.inl ((hg.symmAdj a u).mp hb)
              · rintro (hb | hb)
                · exact (hg.symmAdj a u).mpr hb
                · exact absurd hb hav
            by_cases hbv : b = v
            · rw [hbv, hslv, (hsl a hau hav).1]
              simp only [List.mem_append, List.mem_singleton]
              constructor
              · intro hb; exact Or.inl ((hg.symmAdj a v).mp hb)
              · rintro (hb | hb)
                · exact (hg.symmAdj a v).mpr hb
                · exact absurd hb hau
            rw [(hsl a hau hav).1, (hsl b hbu hbv).1]; exact hg.symmAdj a b
        · intro a b hb
          by_cases hau : a = u <;> by_cases hav : a = v
          · exact absurd (hau.symm.trans hav) huv
          · rw [hau] at hb ⊢
            by_cases hbu : b = u
            · rw [hbu]
            by_cases hbv : b = v
            · rw [hbv, hpu, hpv, lookupW_append_last _ _ _ keysU,
                lookupW_append_last _ _ _ keysV]
            rw [hslu] at hb
            have hb' : b ∈ g.srcList u := by
              rcases List.mem_append.mp hb with h | h
              · exact h
              · exact absurd (List.mem_singleton.mp h) hbv
            rw [hpu, lookupW_append_other _ _ _ _ hbv, (hpo b hbu hbv)]
            exact hg.symW u b hb'
          · rw [hav] at hb ⊢
            by_cases hbu : b = u
            · rw [hbu, hpu, hpv, lookupW_append_last _ _ _ keysU,
                lookupW_append_last _ _ _ keysV]
            by_cases hbv : b = v
            · rw [hbv]
            rw [hslv] at hb
            have hb' : b ∈ g.srcList v := by
              rcases List.mem_append.mp hb with h | h
              · exact h
              · exact absurd (List.mem_singleton.mp h) hbu
            rw [hpv, lookupW_append_other _ _ _ _ hbu, (hpo b hbu hbv)]
            exact hg.symW v b hb'
          · by_cases hbu : b = u
            · rw [hbu] at hb ⊢
              rw [(hsl a hau hav).1] at hb
              rw [hpu, lookupW_append_other _ _ _ _ hav, (hpo a hau hav)]
              exact hg.symW a u hb
            by_cases hbv : b = v
            · rw [hbv] at hb ⊢
              rw [(hsl a hau hav).1] at hb
              rw [hpv, lookupW_append_other _ _ _ _ hau, (hpo a hau hav)]
              exact hg.symW a v hb
            rw [(hsl a hau hav).1] at hb
            rw [(hpo a hau hav), (hpo b hbu hbv)]
            exact hg.symW a b hb

/-- Every `addEdge`-reachable graph satisfies the invariant. -/
theorem Built.ginv {g : Graph} (h : Built g) : GInv g := by
  induction h with
  | init n => exact GInv.empty n
  | step u v w _ ih => exact ih.addEdge u v w

/-! ### Absorption of a duplicate insert -/

theorem Graph.addNode_of_present (g : Graph) (n : ℕ)
    (h : g.nodes n = true) (hc : n < g.cap) : g.addNode n = g := by
  have hcapeq : g.ensureCapacity (n + 1) = g := by
    unfold Graph.ensureCapacity
    rw [if_neg (by omega)]
  simp only [Graph.addNode, hcapeq, h]
  rfl

theorem Graph.addEdge_absorb (g : Graph) (u v : ℕ) (w : ℚ)
    (hm : v ∈ g.srcList u) (hmv : u ∈ g.srcList v)
    (hu : g.nodes u = true) (hv : g.nodes v = true)
    (hcu : u < g.cap) (hcv : v < g.cap) : g.addEdge u v w = g := by
  unfold Graph.addEdge
  split
  · rfl
  · rw [g.addNode_of_present u hu hcu, g.addNode_of_present v hv hcv,
      Graph.addHalf_of_mem g u v w hm, Graph.addHalf_of_mem g v u w hmv]

/-! ### Published-cluster lemmas for `findClusters` -/

theorem fcLoop_size (classOf : ℕ → ℤ) (wt : ℕ → Option ℚ) (minC base : ℤ) :
    ∀ (fuel : ℕ) (nodes : List ℕ) (sense : ℤ) (c : Cluster),
      c ∈ fcLoop classOf wt minC base fuel nodes sense →
        minC ≤ (c.members.length : ℤ) := by
  intro fuel
  induction fuel with
  | zero => intro nodes sense c hc; simp [fcLoop] at hc
  | succ n ih =>
    intro nodes sense c hc
    simp only [fcLoop] at hc
    split at hc
    · simp at hc
    · split at hc
      · next hmin =>
        rcases List.mem_cons.mp hc with h | h
        · rw [h]; exact hmin
        · exact ih _ _ c h
      · exact ih _ _ c hc

theorem fcLoop_senses (classOf : ℕ → ℤ) (wt : ℕ → Option ℚ) (minC base : ℤ) :
    ∀ (fuel : ℕ) (nodes : List ℕ) (sense : ℤ),
      (fcLoop classOf wt minC base fuel nodes sense).map Cluster.sense =
        (List.range (fcLoop classOf wt minC base fuel nodes sense).length).map
          fun i => sense + Int.ofNat i := by
  intro fuel
  induction fuel with
  | zero => intro nodes sense; simp [fcLoop]
  | succ n ih =>
    intro nodes sense
    simp only [fcLoop]
    split
    · simp
    · split
      · rw [List.map_cons, ih, List.length_cons, List.range_succ_eq_map,
          List.map_cons, List.map_map]
        refine congrArg₂ _ (by simp) ?_
        refine List.map_congr_left ?_
        intro i _
        simp only [Function.comp_apply, Int.ofNat_eq_coe, Nat.succ_eq_add_one]
        push_cast
        ring
      · exact ih _ _

/-! ### Sweep count of `chineseWhispers` -/

theorem cwLoop_sweeps (shuffle : ℕ → List ℕ → List ℕ) :
    ∀ (rem : ℕ) (g : Graph) (ch : Bool) (z : ℕ),
      (cwLoop shuffle g ch z rem).2 ≤ rem := by
  intro rem
  induction rem with
  | zero => intro g ch z; simp [cwLoop]
  | succ n ih =>
    intro g ch z
    simp only [cwLoop]
    split
    · exact Nat.succ_le_succ (ih _ _ _)
    · exact Nat.zero_le _

end CW

/-! ## The claims -/

/-- Claim C3, counterexample: the cluster record is created with the
pre-increment value of the sense counter (`new Cluster(baseNode, sense)`
precedes `sense++`), so the first published cluster of a base node carries
sense id 0, not 1 as the claim states.  Concrete run: two nodes of one
class, `min_cluster = 1` — one cluster is published and its sense id is 0. -/
theorem claim_C3_counterexample :
    ((CW.findClusters (fun _ => 5) (fun _ => some 1) 1 7 [1, 2]).map
        CW.Cluster.sense = [0]) ∧ (0 : ℤ) ≠ 1 := by
  constructor
  · rfl
  · decide

/-- Claim C3, amended: within one base node the published sense ids are
exactly `0, 1, 2, …` in publication order — strictly increasing, starting
from 0 (not 1), none skipped: the counter starts at 0, each cluster captures
the current counter value at creation, and the counter is incremented
exactly when a cluster of size ≥ `min_cluster` is published. -/
theorem claim_C3 (classOf : ℕ → ℤ) (wt : ℕ → Option ℚ) (minC base : ℤ)
    (nodes : List ℕ) :
    (CW.findClusters classOf wt minC base nodes).map CW.Cluster.sense =
      (List.range (CW.findClusters classOf wt minC base nodes).length).map
        fun i => Int.ofNat i := by
  unfold CW.findClusters
  have h := CW.fcLoop_senses classOf wt minC base nodes.length nodes 0
  simpa using h

/-- Claim C4, code bug: `addEdge` is guarded by the Java **reference**
comparison `from != to` of two boxed `Integer`s; ids ≥ 128 autobox to
distinct objects, so inserting the numerically equal pair (200, 200) on the
loader's fresh graph stores the self-loop `200 ∈ adj(200)` — the claim
(`add_edge(u,v,w)` is a no-op whenever `u == v` numerically, no self-loop is
ever stored) fails.  For a value in the `Integer` cache the guard does work:
`addEdge(100, 100, ·)` is a no-op. -/
theorem claim_C4 :
    ((CW.Graph.empty 200000).addEdge 200 200 (1/2)).srcList 200 = [200] ∧
      200 ∈ ((CW.Graph.empty 200000).addEdge 200 200 (1/2)).srcList 200 ∧
      ((CW.Graph.empty 200000).addEdge 100 100 (1/2)).srcList 100 = [] := by
  refine ⟨rfl, ?_, rfl⟩
  rw [show ((CW.Graph.empty 200000).addEdge 200 200 (1/2)).srcList 200 = [200] from rfl]
  exact List.mem_singleton.mpr rfl

/-- Claim C5, confirmed: in every graph reachable by `addEdge` calls,
adjacency is symmetric — `v ∈ adj(u) ↔ u ∈ adj(v)` — and the stored weight
(the first-match linear-scan value of `getEdgeWeight`) is identical in both
directions. -/
theorem claim_C5 (g : CW.Graph) (h : CW.Built g) (u v : ℕ) :
    (v ∈ g.srcList u ↔ u ∈ g.srcList v) ∧
      (v ∈ g.srcList u →
        CW.lookupW (g.edgePairs u) v = CW.lookupW (g.edgePairs v) u) :=
  ⟨h.ginv.symmAdj u v, h.ginv.symW u v⟩

/-- Witness for C5 at a concrete built graph. -/
theorem claim_C5_witness :
    (3 ∈ ((CW.Graph.empty 10).addEdge 2 3 (4/5)).srcList 2 ↔
        2 ∈ ((CW.Graph.empty 10).addEdge 2 3 (4/5)).srcList 3) ∧
      (3 ∈ ((CW.Graph.empty 10).addEdge 2 3 (4/5)).srcList 2 →
        CW.lookupW (((CW.Graph.empty 10).addEdge 2 3 (4/5)).edgePairs 2) 3 =
          CW.lookupW (((CW.Graph.empty 10).addEdge 2 3 (4/5)).edgePairs 3) 2) :=
  claim_C5 _ (CW.Built.step 2 3 (4/5) (CW.Built.init 10)) 2 3

/-- Claim C6, counterexample: the claim quantifies over *every* graph, but
when the edge (1, 2) already exists with weight 1/4, inserting it again with
`w1 = 1/2` and then `w2 = 9/10` leaves `edge_weight(1,2) = 1/4 ≠ w1`: the
first writer *ever* wins, not the first of the two quantified calls. -/
theorem claim_C6_counterexample :
    ((((CW.Graph.empty 10).addEdge 1 2 (1/4)).addEdge 1 2 (1/2)).addEdge 1 2
        (9/10)).getEdgeWeight? 1 2 = some (1/4) ∧ (1/4 : ℚ) ≠ 1/2 := by
  constructor
  · rfl
  · norm_num

/-- Claim C6, amended: duplicate edge insertion is idempotent with
first-writer-wins weight, **provided the edge is absent beforehand**: for
every reachable graph with `v ∉ adj(u)` and `u ≠ v`, after
`add_edge(u,v,w1); add_edge(u,v,w2)` the list `adj(u)` contains `v` exactly
once, its length is unchanged by the second call, and
`edge_weight(u,v) = w1`. -/
theorem claim_C6 (g : CW.Graph) (hb : CW.Built g) (u v : ℕ) (w1 w2 : ℚ)
    (huv : u ≠ v) (hfresh : v ∉ g.srcList u) :
    (((g.addEdge u v w1).addEdge u v w2).srcList u).count v = 1 ∧
      (((g.addEdge u v w1).addEdge u v w2).srcList u).length =
        ((g.addEdge u v w1).srcList u).length ∧
      ((g.addEdge u v w1).addEdge u v w2).getEdgeWeight? u v = some w1 := by
  have hg := hb.ginv
  have hnv : u ∉ g.srcList v := fun hx => hfresh ((hg.symmAdj v u).mp hx)
  obtain ⟨hsU, hwU, hsV, hwV, hcapu, hcapv, hnu, hnv'⟩ :=
    g.addEdge_fresh hg.flagNone u v w1 huv hfresh hnv
  have hslu : (g.addEdge u v w1).srcList u = g.srcList u ++ [v] := by
    rw [CW.Graph.srcList, hsU]; rfl
  have hslv : (g.addEdge u v w1).srcList v = g.srcList v ++ [u] := by
    rw [CW.Graph.srcList, hsV]; rfl
  have hm1 : v ∈ (g.addEdge u v w1).srcList u := by rw [hslu]; simp
  have hmv1 : u ∈ (g.addEdge u v w1).srcList v := by rw [hslv]; simp
  have habs : (g.addEdge u v w1).addEdge u v w2 = g.addEdge u v w1 :=
    (g.addEdge u v w1).addEdge_absorb u v w2 hm1 hmv1 hnu hnv' hcapu hcapv
  rw [habs]
  refine ⟨?_, rfl, ?_⟩
  · rw [hslu]
    simp [List.count_eq_zero_of_not_mem hfresh]
  · have hkeys := CW.edgePairs_fst_ne g u v hfresh
    have hzip : (g.srcList u ++ [v]).zip (g.wtList u ++ [w1]) =
        g.edgePairs u ++ [(v, w1)] := by
      rw [List.zip_append (hg.lenEq u)]; rfl
    simp only [CW.Graph.getEdgeWeight?, if_pos hcapu, hsU, hwU]
    rw [hzip, CW.lookupW_append_last _ _ _ hkeys]

/-- Witness for C6 at the spec's own S3 scenario. -/
theorem claim_C6_witness :
    ((((CW.Graph.empty 10).addEdge 1 2 (1/2)).addEdge 1 2 (9/10)).srcList 1).count 2 = 1 ∧
      ((((CW.Graph.empty 10).addEdge 1 2 (1/2)).addEdge 1 2 (9/10)).srcList 1).length =
        (((CW.Graph.empty 10).addEdge 1 2 (1/2)).srcList 1).length ∧
      (((CW.Graph.empty 10).addEdge 1 2 (1/2)).addEdge 1 2 (9/10)).getEdgeWeight? 1 2 =
        some (1/2) :=
  claim_C6 _ (CW.Built.init 10) 1 2 (1/2) (9/10) (by decide) (by decide)

/-- Claim C7, counterexample: `getEdgeWeight(3, 5)` on a freshly constructed
graph dereferences the null slot `edgeSources[3]` and throws a
`NullPointerException` (`none`) instead of returning 0, and
`getNeighbors(15)` indexes past the backing array (length 10) and throws
`ArrayIndexOutOfBoundsException` instead of returning the empty sequence —
the operations do fault on absent nodes. -/
theorem claim_C7_counterexample :
    (CW.Graph.empty 10).getEdgeWeight? 3 5 = none ∧
      (CW.Graph.empty 10).getNeighbors? 15 = none := by
  exact ⟨rfl, rfl⟩

/-- Claim C7, amended: `edge_weight(u, v)` returns 0 when the edge is absent
**provided `u` is a node that has been added** (its adjacency slot is
non-null and within capacity); `neighbors(x)` returns the empty sequence for
an absent `x` only when `x` is within the backing-array capacity.  For a
never-added `u` within capacity `getEdgeWeight` throws `NullPointerException`,
and both operations throw `ArrayIndexOutOfBoundsException` past the
capacity.  -/
theorem claim_C7 (g : CW.Graph) (u v x : ℕ) (l : List ℕ) (ws : List ℚ)
    (hu : u < g.cap) (hsrc : g.edgeSources u = some l)
    (hwt : g.edgeWeights u = some ws) (hv : v ∉ l)
    (hx : x < g.cap) (hxnull : g.edgeSources x = none) :
    g.getEdgeWeight? u v = some 0 ∧ g.getNeighbors? x = some [] := by
  constructor
  · simp only [CW.Graph.getEdgeWeight?, if_pos hu, hsrc, hwt]
    rw [CW.lookupW_not_mem]
    rintro ⟨a, b⟩ hp rfl
    exact hv (List.of_mem_zip hp).1
  · simp [CW.Graph.getNeighbors?, hx, CW.Graph.srcList, hxnull]

/-- Witness for C7 on a concrete graph with one edge. -/
theorem claim_C7_witness :
    ((CW.Graph.empty 10).addEdge 1 2 (1/2)).getEdgeWeight? 1 7 = some 0 ∧
      ((CW.Graph.empty 10).addEdge 1 2 (1/2)).getNeighbors? 5 = some [] :=
  claim_C7 _ 1 7 5 [2] [1/2] (by decide) rfl rfl (by decide) (by decide) rfl

/-- Claim C8, confirmed: after `sortEdges`, for every node slot of the
backing arrays (with weights null whenever sources are — as in every graph
the program builds), the weight sequence is non-decreasing and the
(neighbour, weight) pairing is a permutation of the original one: the two
lists are reordered in tandem, each neighbour keeping its weight. -/
theorem claim_C8 (g : CW.Graph) (v : ℕ) (hv : v < g.cap)
    (hwf : g.edgeSources v = none → g.edgeWeights v = none) :
    (g.sortEdges.wtList v).Pairwise (· ≤ ·) ∧
      (g.sortEdges.edgePairs v).Perm (g.edgePairs v) := by
  cases hs : g.edgeSources v with
  | none =>
    have hw := hwf hs
    have h1 : g.sortEdges.edgeSources v = none := by
      simp [CW.Graph.sortEdges, hs]
    have h2 : g.sortEdges.edgeWeights v = none := by
      simp [CW.Graph.sortEdges, hs, hw]
    constructor
    · rw [CW.Graph.wtList, h2]; exact List.Pairwise.nil
    · rw [CW.Graph.edgePairs, CW.Graph.srcList, CW.Graph.wtList, h1, h2,
        CW.Graph.edgePairs, CW.Graph.srcList, CW.Graph.wtList, hs, hw]
  | some l =>
    have hcond : v < g.cap ∧ (g.edgeSources v).isSome := ⟨hv, by rw [hs]; rfl⟩
    have h1 : g.sortEdges.edgeSources v =
        some ((CW.sortPairs (g.edgePairs v)).map Prod.fst) := by
      simp only [CW.Graph.sortEdges, if_pos hcond]
    have h2 : g.sortEdges.edgeWeights v =
        some ((CW.sortPairs (g.edgePairs v)).map Prod.snd) := by
      simp only [CW.Graph.sortEdges, if_pos hcond]
    have htrans : ∀ a b c : ℕ × ℚ, decide (a.2 ≤ b.2) → decide (b.2 ≤ c.2) →
        decide (a.2 ≤ c.2) := by
      intro a b c hab hbc
      simp only [decide_eq_true_eq] at *
      exact le_trans hab hbc
    have htotal : ∀ a b : ℕ × ℚ, decide (a.2 ≤ b.2) || decide (b.2 ≤ a.2) := by
      intro a b
      simpa using le_total a.2 b.2
    constructor
    · rw [CW.Graph.wtList, h2, Option.getD_some]
      have hp := @List.sorted_mergeSort (ℕ × ℚ) (fun a b => decide (a.2 ≤ b.2))
        htrans htotal (g.edgePairs v)
      refine List.Pairwise.map Prod.snd ?_ hp
      intro a b hab
      simpa using hab
    · rw [CW.Graph.edgePairs, CW.Graph.srcList, CW.Graph.wtList, h1, h2,
        Option.getD_some, Option.getD_some]
      rw [show ((CW.sortPairs (g.edgePairs v)).map Prod.fst) =
          (CW.sortPairs (g.edgePairs v)).unzip.1 by simp]
      rw [show ((CW.sortPairs (g.edgePairs v)).map Prod.snd) =
          (CW.sortPairs (g.edgePairs v)).unzip.2 by simp]
      rw [List.zip_unzip]
      exact List.mergeSort_perm (g.edgePairs v) _

/-- Witness for C8 on a concrete three-edge graph. -/
theorem claim_C8_witness :
    (((((CW.Graph.empty 10).addEdge 1 2 (1/2)).addEdge 2 3 (4/5)).addEdge 1 3
          (1/10)).sortEdges.wtList 1).Pairwise (· ≤ ·) ∧
      (((((CW.Graph.empty 10).addEdge 1 2 (1/2)).addEdge 2 3 (4/5)).addEdge 1 3
          (1/10)).sortEdges.edgePairs 1).Perm
        (((((CW.Graph.empty 10).addEdge 1 2 (1/2)).addEdge 2 3 (4/5)).addEdge 1 3
          (1/10)).edgePairs 1) :=
  claim_C8 _ 1 (by decide) (fun h => absurd h (by decide))

/-- Claim C9, confirmed: every cluster published to the queue by
`findClusters` has at least `min_cluster` members — the `if
(cluster.getMembers().size() >= this.minCluster)` guard precedes every
`clusterQueue.put`, and undersized clusters are dropped. -/
theorem claim_C9 (classOf : ℕ → ℤ) (wt : ℕ → Option ℚ) (minC base : ℤ)
    (nodes : List ℕ) (c : CW.Cluster)
    (hc : c ∈ CW.findClusters classOf wt minC base nodes) :
    minC ≤ (c.members.length : ℤ) :=
  CW.fcLoop_size classOf wt minC base nodes.length nodes 0 c hc

/-- Witness for C9 on a concrete run publishing one cluster of 3 members. -/
theorem claim_C9_witness :
    (3 : ℤ) ≤ (((⟨7, 0, [(3, some 1), (4, some 1), (5, some 1)]⟩ :
        CW.Cluster).members.length : ℤ)) :=
  claim_C9 (fun n => if n ≤ 2 then 5 else 9) (fun _ => some 1) 3 7
    [1, 2, 3, 4, 5] _
    (by rw [show CW.findClusters (fun n => if n ≤ 2 then 5 else 9)
          (fun _ => some 1) 3 7 [1, 2, 3, 4, 5] =
          [⟨7, 0, [(3, some 1), (4, some 1), (5, some 1)]⟩] from rfl]
        exact List.mem_singleton.mpr rfl)

/-- Claim C10, confirmed: `chineseWhispers` performs at most
`max_iterations` sweeps over the node list, for every ego graph, every
shuffle behaviour and every iteration cap — the propagation loop is a
bounded `for` with an early `break` on a change-free sweep. -/
theorem claim_C10 (shuffle : ℕ → List ℕ → List ℕ) (maxIterations : ℕ)
    (g : CW.Graph) :
    (CW.chineseWhispers shuffle maxIterations g).2 ≤ maxIterations := by
  unfold CW.chineseWhispers
  exact CW.cwLoop_sweeps shuffle maxIterations _ true 0

/-- Claim C2, code bug: in the emission loop of `calculate_edges` the offset
is set to −1 *before* the write of the matching iteration, so the self edge
is written instead of skipped.  For token `t = 2` of an `N = 5`, `n = 2` run
with similarity row (0.9, 0.8, 1.0, 0.7, 0.6), the partitioned index buffer
is `[1, 2, 0, 3, 4]` (self index at `j = 1`), and token 2's two slots (4 and
5) end up holding `(2, 2, 1.0)` — an edge whose to-index equals the token,
having overwritten the already-emitted edge `(2, 1, 0.8)` — and
`(2, 0, 0.9)`.  And when the self index lands at `j = 0` (token 1 of an
`N = 4` run with row (0.8, 1.0, 0.9, 0.1)), the loop writes slot
`t·n − 1 = 1`, which lies in token 0's slot range, so the write is not
confined to token 1's own slots. -/
theorem claim_C2 :
    ((Tok.processRow
        (fun p => if p = 0 then mkRat 9 10 else if p = 1 then mkRat 4 5
          else if p = 2 then 1 else if p = 3 then mkRat 7 10 else mkRat 3 5)
        5 2 2 fun _ => ⟨0, 0, 0⟩) 4 = ⟨2, 2, 1⟩ ∧
      (Tok.processRow
        (fun p => if p = 0 then mkRat 9 10 else if p = 1 then mkRat 4 5
          else if p = 2 then 1 else if p = 3 then mkRat 7 10 else mkRat 3 5)
        5 2 2 fun _ => ⟨0, 0, 0⟩) 5 = ⟨2, 0, mkRat 9 10⟩) ∧
      (Tok.processRow
        (fun p => if p = 0 then mkRat 4 5 else if p = 1 then 1
          else if p = 2 then mkRat 9 10 else mkRat 1 10)
        4 2 1 fun _ => ⟨0, 0, 0⟩) 1 = ⟨1, 1, 1⟩ := by
  refine ⟨⟨?_, ?_⟩, ?_⟩ <;> decide

namespace Tok

/-! ### Correctness of `argpartition`

`argpartition` keeps the *high* scores on the left: the inner loop moves
every element with score ≤ pivot to the tail.  The claims below establish
partial correctness of the two loops: whenever the outer loop exits (the
returned flag), the first `k` slots all score at least as much as every
later slot, and the window `[0, s)` of the index array is a permutation of
its initial contents. -/

theorem fswap_eq_comp_swap (f : ℤ → ℤ) (i j : ℤ) :
    fswap f i j = fun x => f (Equiv.swap i j x) := by
  funext x
  unfold fswap
  by_cases hxi : x = i
  · subst hxi
    rw [Function.update_same, Equiv.swap_apply_left]
  · rw [Function.update_noteq hxi]
    by_cases hxj : x = j
    · subst hxj
      rw [Function.update_same, Equiv.swap_apply_right]
    · rw [Function.update_noteq hxj, Equiv.swap_apply_of_ne_of_ne hxi hxj]

theorem mapRange_fswap_perm (f : ℤ → ℤ) (i j lo : ℤ) (len : ℕ)
    (hi1 : lo ≤ i) (hi2 : i < lo + len) (hj1 : lo ≤ j) (hj2 : j < lo + len) :
    (mapRange (fswap f i j) lo len).Perm (mapRange f lo len) := by
  rw [fswap_eq_comp_swap]
  unfold mapRange
  have hL : ((List.range len).map fun p : ℕ => f (Equiv.swap i j (lo + (p : ℤ))))
      = ((List.range len).map fun p : ℕ => Equiv.swap i j (lo + (p : ℤ))).map f := by
    rw [List.map_map]; rfl
  have hR : ((List.range len).map fun p : ℕ => f (lo + (p : ℤ)))
      = ((List.range len).map fun p : ℕ => lo + (p : ℤ)).map f := by
    rw [List.map_map]; rfl
  rw [hL, hR]
  refine List.Perm.map f ?_
  have hinj : Function.Injective fun p : ℕ => lo + (p : ℤ) := by
    intro a b h
    simpa using h
  have hnodR : ((List.range len).map fun p : ℕ => lo + (p : ℤ)).Nodup :=
    List.Nodup.map hinj (List.nodup_range len)
  have hnodL : ((List.range len).map fun p : ℕ =>
      Equiv.swap i j (lo + (p : ℤ))).Nodup := by
    refine List.Nodup.map ?_ (List.nodup_range len)
    intro a b h
    exact hinj ((Equiv.swap i j).injective h)
  rw [List.perm_ext_iff_of_nodup hnodL hnodR]
  intro a
  simp only [List.mem_map, List.mem_range]
  have hswap_mem : ∀ x : ℤ, lo ≤ x → x < lo + len →
      lo ≤ Equiv.swap i j x ∧ Equiv.swap i j x < lo + len := by
    intro x hx1 hx2
    by_cases hfix : Equiv.swap i j x = x
    · rw [hfix]; exact ⟨hx1, hx2⟩
    · have : x = i ∨ x = j := by
        by_contra hne
        push_neg at hne
        exact hfix (Equiv.swap_apply_of_ne_of_ne hne.1 hne.2)
      rcases this with rfl | rfl
      · rw [Equiv.swap_apply_left]; exact ⟨hj1, hj2⟩
      · rw [Equiv.swap_apply_right]; exact ⟨hi1, hi2⟩
  constructor
  · rintro ⟨p, hp, rfl⟩
    have h := hswap_mem (lo + p) (by omega) (by omega)
    refine ⟨(Equiv.swap i j (lo + (p : ℤ)) - lo).toNat, by omega, by omega⟩
  · rintro ⟨p, hp, rfl⟩
    have h := hswap_mem (lo + p) (by omega) (by omega)
    refine ⟨(Equiv.swap i j (lo + (p : ℤ)) - lo).toNat, by omega, ?_⟩
    have hcast : lo + ((Equiv.swap i j (lo + (p : ℤ)) - lo).toNat : ℤ)
        = Equiv.swap i j (lo + (p : ℤ)) := by omega
    rw [hcast, Equiv.swap_apply_self]

/-- Full specification of the inner loop: it exits with `r = w`, the scanned
prefix strictly exceeds the pivot, the parked suffix is at most the pivot,
slots outside `[r, w]` are untouched, the contents of `[r, w]` are drawn
from the original contents of `[r, w]`, and any window containing `[r, w]`
keeps its multiset of values. -/
theorem apInner_spec (sim : ℤ → ℚ) (mid : ℚ) :
    ∀ (fuel : ℕ) (f : ℤ → ℤ) (r w : ℤ), r ≤ w → (w - r).toNat < fuel →
      ∃ f1 r1,
        apInner sim mid f r w fuel = ((f1, r1, r1), true) ∧
        r ≤ r1 ∧ r1 ≤ w ∧
        (∀ p, r ≤ p → p < r1 → mid < sim (f1 p)) ∧
        (∀ q, r1 < q → q ≤ w → sim (f1 q) ≤ mid) ∧
        (∀ p, p < r ∨ w < p → f1 p = f p) ∧
        (∀ p, r ≤ p → p ≤ w → ∃ pp, r ≤ pp ∧ pp ≤ w ∧ f1 p = f pp) ∧
        (∀ (lo : ℤ) (len : ℕ), lo ≤ r → w < lo + len →
          (mapRange f1 lo len).Perm (mapRange f lo len)) := by
  intro fuel
  induction fuel with
  | zero =>
    intro f r w hrw hfuel
    exact absurd hfuel (by omega)
  | succ n ih =>
    intro f r w hrw hfuel
    by_cases hlt : r < w
    · by_cases hcmp : sim (f r) ≤ mid
      · -- the element at `r` is parked at `w` and `w` shrinks
        obtain ⟨f1, r1, heq, h1, h2, h3, h4, h5, h6, h7⟩ :=
          ih (fswap f r w) r (w - 1) (by omega) (by omega)
        refine ⟨f1, r1, ?_, h1, by omega, h3, ?_, ?_, ?_, ?_⟩
        · simp only [apInner]
          rw [if_pos hlt, if_pos hcmp]
          exact heq
        · intro q hq1 hq2
          by_cases hqw : q = w
          · rw [hqw, h5 w (Or.inr (by omega))]
            unfold fswap
            rw [Function.update_noteq (by omega : w ≠ r), Function.update_same]
            exact hcmp
          · exact h4 q hq1 (by omega)
        · intro p hp
          rw [h5 p (Or.imp (fun h => h) (fun h => by omega) hp)]
          unfold fswap
          rcases hp with h | h
          · rw [Function.update_noteq (by omega : p ≠ r),
              Function.update_noteq (by omega : p ≠ w)]
          · rw [Function.update_noteq (by omega : p ≠ r),
              Function.update_noteq (by omega : p ≠ w)]
        · intro p hp1 hp2
          by_cases hpw : p = w
          · refine ⟨r, le_refl r, by omega, ?_⟩
            rw [hpw, h5 w (Or.inr (by omega))]
            unfold fswap
            rw [Function.update_noteq (by omega : w ≠ r), Function.update_same]
          · obtain ⟨pp, hpp1, hpp2, hppe⟩ := h6 p hp1 (by omega)
            by_cases hppr : pp = r
            · refine ⟨w, by omega, le_refl w, ?_⟩
              rw [hppe, hppr]
              unfold fswap
              rw [Function.update_same]
            · refine ⟨pp, hpp1, by omega, ?_⟩
              rw [hppe]
              unfold fswap
              rw [Function.update_noteq hppr,
                Function.update_noteq (by omega : pp ≠ w)]
        · intro lo len hlo hhi
          exact (h7 lo len hlo (by omega)).trans
            (mapRange_fswap_perm f r w lo len (by omega) (by omega) (by omega)
              (by omega))
      · -- the element at `r` stays on the high side and `r` advances
        obtain ⟨f1, r1, heq, h1, h2, h3, h4, h5, h6, h7⟩ :=
          ih f (r + 1) w (by omega) (by omega)
        refine ⟨f1, r1, ?_, by omega, h2, ?_, h4, ?_, ?_, ?_⟩
        · simp only [apInner]
          rw [if_pos hlt, if_neg hcmp]
          exact heq
        · intro p hp1 hp2
          by_cases hpr : p = r
          · rw [hpr, h5 r (Or.inl (by omega))]
            exact lt_of_not_le hcmp
          · exact h3 p (by omega) hp2
        · intro p hp
          exact h5 p (Or.imp (fun h => by omega) (fun h => h) hp)
        · intro p hp1 hp2
          by_cases hpr : p = r
          · exact ⟨r, le_refl r, by omega, by rw [hpr, h5 r (Or.inl (by omega))]⟩
          · obtain ⟨pp, ha, hb, hc⟩ := h6 p (by omega) hp2
            exact ⟨pp, by omega, hb, hc⟩
        · intro lo len hlo hhi
          exact h7 lo len (by omega) hhi
    · have hre : r = w := le_antisymm hrw (not_lt.mp hlt)
      subst hre
      refine ⟨f, r, ?_, le_refl r, le_refl r, ?_, ?_, fun p _ => rfl, ?_, ?_⟩
      · simp only [apInner]
        rw [if_neg hlt]
      · intro p hp1 hp2
        omega
      · intro q hq1 hq2
        omega
      · intro p hp1 hp2
        exact ⟨p, hp1, hp2, rfl⟩
      · intro lo len _ _
        exact List.Perm.refl _

end Tok

namespace Tok

/-- Transfer of the "left of `fromI` dominates `[fromI, s)`" invariant
across an in-place rearrangement of `[fromI, toI]`. -/
theorem transferA (sim : ℤ → ℚ) (s : ℤ) (f f1 : ℤ → ℤ) (fromI toI : ℤ)
    (hts : toI ≤ s - 1)
    (hA : ∀ p q, 0 ≤ p → p < fromI → fromI ≤ q → q < s → sim (f q) ≤ sim (f p))
    (hU : ∀ p, p < fromI ∨ toI < p → f1 p = f p)
    (hR : ∀ p, fromI ≤ p → p ≤ toI → ∃ pp, fromI ≤ pp ∧ pp ≤ toI ∧ f1 p = f pp) :
    ∀ p q, 0 ≤ p → p < fromI → fromI ≤ q → q < s → sim (f1 q) ≤ sim (f1 p) := by
  intro p q hp0 hpf hfq hqs
  rw [hU p (Or.inl hpf)]
  by_cases hq : q ≤ toI
  · obtain ⟨qq, hq1, hq2, hq3⟩ := hR q hfq hq
    rw [hq3]
    exact hA p qq hp0 hpf hq1 (by omega)
  · rw [hU q (Or.inr (by omega))]
    exact hA p q hp0 hpf hfq hqs

/-- Transfer of the "`[0, toI]` dominates right of `toI`" invariant across
an in-place rearrangement of `[fromI, toI]`. -/
theorem transferB (sim : ℤ → ℚ) (s : ℤ) (f f1 : ℤ → ℤ) (fromI toI : ℤ)
    (hf0 : 0 ≤ fromI)
    (hB : ∀ p q, 0 ≤ p → p ≤ toI → toI < q → q < s → sim (f q) ≤ sim (f p))
    (hU : ∀ p, p < fromI ∨ toI < p → f1 p = f p)
    (hR : ∀ p, fromI ≤ p → p ≤ toI → ∃ pp, fromI ≤ pp ∧ pp ≤ toI ∧ f1 p = f pp) :
    ∀ p q, 0 ≤ p → p ≤ toI → toI < q → q < s → sim (f1 q) ≤ sim (f1 p) := by
  intro p q hp0 hpt htq hqs
  rw [hU q (Or.inr htq)]
  by_cases hp : p < fromI
  · rw [hU p (Or.inl hp)]
    exact hB p q hp0 hpt htq hqs
  · obtain ⟨pp, hp1, hp2, hp3⟩ := hR p (by omega) hpt
    rw [hp3]
    exact hB pp q (by omega) hp2 htq hqs

/-- The pivot pass establishes the dominance invariant at the new boundary
`r2`: everything at or left of `r2` scores at least the pivot, everything
right of it (up to `toI`) at most the pivot, and beyond `toI` the old
invariant carries over. -/
theorem stepB (sim : ℤ → ℚ) (s : ℤ) (f f1 : ℤ → ℤ) (fromI toI r2 m : ℤ)
    (hf0 : 0 ≤ fromI)
    (hm1 : fromI ≤ m) (hm2 : m ≤ toI) (hts : toI ≤ s - 1)
    (hr2 : r2 ≤ toI)
    (hA : ∀ p q, 0 ≤ p → p < fromI → fromI ≤ q → q < s → sim (f q) ≤ sim (f p))
    (hB : ∀ p q, 0 ≤ p → p ≤ toI → toI < q → q < s → sim (f q) ≤ sim (f p))
    (hU : ∀ p, p < fromI ∨ toI < p → f1 p = f p)
    (hR : ∀ p, fromI ≤ p → p ≤ toI → ∃ pp, fromI ≤ pp ∧ pp ≤ toI ∧ f1 p = f pp)
    (hI1 : ∀ p, fromI ≤ p → p ≤ r2 → sim (f m) ≤ sim (f1 p))
    (hI2 : ∀ q, r2 < q → q ≤ toI → sim (f1 q) ≤ sim (f m)) :
    ∀ p q, 0 ≤ p → p ≤ r2 → r2 < q → q < s → sim (f1 q) ≤ sim (f1 p) := by
  intro p q hp0 hpr hrq hqs
  have hpMid : sim (f m) ≤ sim (f1 p) := by
    by_cases hp : p < fromI
    · rw [hU p (Or.inl hp)]
      exact hA p m hp0 hp hm1 (by omega)
    · exact hI1 p (by omega) hpr
  by_cases hq : q ≤ toI
  · exact le_trans (hI2 q hrq hq) hpMid
  · rw [hU q (Or.inr (by omega))]
    by_cases hp : p < fromI
    · rw [hU p (Or.inl hp)]
      exact hB p q hp0 (by omega) (by omega) hqs
    · obtain ⟨pp, h1, h2, h3⟩ := hR p (by omega) (by omega)
      rw [h3]
      exact hB pp q (by omega) h2 (by omega) hqs

/-- When the outer loop stops (`toI ≤ fromI`), the two invariants and the
window containing `k` give the top-`k` dominance property. -/
theorem apOuter_exit (sim : ℤ → ℚ) (k s : ℤ) (f : ℤ → ℤ) (fromI toI : ℤ)
    (hfk : fromI ≤ k) (hk : k ≤ toI + 1) (hto : toI ≤ fromI)
    (hA : ∀ p q, 0 ≤ p → p < fromI → fromI ≤ q → q < s → sim (f q) ≤ sim (f p))
    (hB : ∀ p q, 0 ≤ p → p ≤ toI → toI < q → q < s → sim (f q) ≤ sim (f p)) :
    ∀ a b, 0 ≤ a → a < k → k ≤ b → b < s → sim (f b) ≤ sim (f a) := by
  intro a b ha hak hkb hbs
  rcases (by omega : k = fromI ∨ (k = fromI + 1 ∧ toI = fromI)) with hk' | ⟨hk', hti⟩
  · exact hA a b ha (by omega) (by omega) hbs
  · by_cases har : a = fromI
    · exact hB a b ha (by omega) (by omega) hbs
    · exact hA a b ha (by omega) (by omega) hbs

/-- Partial correctness of the outer loop of `argpartition`: if it exits
within the given fuel, the first `k` slots of the index array all score at
least as much (under `sim`) as every slot in `[k, s)`, and the window
`[0, s)` holds a permutation of its original contents. -/
theorem apOuter_spec (sim : ℤ → ℚ) (k s : ℤ) :
    ∀ (fuel : ℕ) (f : ℤ → ℤ) (fromI toI : ℤ),
      0 ≤ fromI → toI ≤ s - 1 → fromI ≤ k → k ≤ toI + 1 →
      (∀ p q, 0 ≤ p → p < fromI → fromI ≤ q → q < s → sim (f q) ≤ sim (f p)) →
      (∀ p q, 0 ≤ p → p ≤ toI → toI < q → q < s → sim (f q) ≤ sim (f p)) →
      (apOuter sim k f fromI toI fuel).2 = true →
      (∀ a b, 0 ≤ a → a < k → k ≤ b → b < s →
        sim ((apOuter sim k f fromI toI fuel).1 b) ≤
          sim ((apOuter sim k f fromI toI fuel).1 a)) ∧
      (mapRange (apOuter sim k f fromI toI fuel).1 0 s.toNat).Perm
        (mapRange f 0 s.toNat) := by
  intro fuel
  induction fuel with
  | zero =>
    intro f fromI toI h0 hts hfk hk hA hB hflag
    simp only [apOuter] at hflag ⊢
    have hto : toI ≤ fromI := by
      have := of_decide_eq_true hflag
      omega
    exact ⟨apOuter_exit sim k s f fromI toI hfk hk hto hA hB, List.Perm.refl _⟩
  | succ n ih =>
    intro f fromI toI h0 hts hfk hk hA hB hflag
    by_cases hlt : fromI < toI
    · obtain ⟨f1, r1, heq, hr1a, hr1b, hLeft, hRight, hU, hR, hPerm⟩ :=
        apInner_spec sim (sim (f ((fromI + toI) / 2)))
          ((toI - fromI).toNat + 1) f fromI toI (le_of_lt hlt) (by omega)
      have hm1 : fromI ≤ (fromI + toI) / 2 := by omega
      have hm2 : (fromI + toI) / 2 ≤ toI := by omega
      rw [show (apOuter sim k f fromI toI (n + 1)) =
          (if k ≤ (if sim (f1 r1) < sim (f ((fromI + toI) / 2)) then r1 - 1 else r1)
            then apOuter sim k f1 fromI
              (if sim (f1 r1) < sim (f ((fromI + toI) / 2)) then r1 - 1 else r1) n
            else apOuter sim k f1
              ((if sim (f1 r1) < sim (f ((fromI + toI) / 2)) then r1 - 1 else r1) + 1)
              toI n) by
        simp only [apOuter]
        rw [if_pos hlt, heq]] at hflag ⊢
      by_cases hadj : sim (f1 r1) < sim (f ((fromI + toI) / 2))
      · rw [if_pos hadj] at hflag ⊢
        have hI1 : ∀ p, fromI ≤ p → p ≤ r1 - 1 →
            sim (f ((fromI + toI) / 2)) ≤ sim (f1 p) :=
          fun p hp1 hp2 => le_of_lt (hLeft p hp1 (by omega))
        have hI2 : ∀ q, r1 - 1 < q → q ≤ toI → sim (f1 q) ≤
            sim (f ((fromI + toI) / 2)) := by
          intro q hq1 hq2
          by_cases hqr : q = r1
          · rw [hqr]; exact le_of_lt hadj
          · exact hRight q (by omega) hq2
        by_cases hbr : k ≤ r1 - 1
        · rw [if_pos hbr] at hflag ⊢
          have hA1 := transferA sim s f f1 fromI toI hts hA hU hR
          have hB1 := stepB sim s f f1 fromI toI (r1 - 1) ((fromI + toI) / 2)
            h0 hm1 hm2 hts (by omega) hA hB hU hR hI1 hI2
          obtain ⟨hc, hp⟩ := ih f1 fromI (r1 - 1) h0 (by omega) hfk (by omega)
            hA1 hB1 hflag
          exact ⟨hc, hp.trans (hPerm 0 s.toNat h0 (by omega))⟩
        · rw [if_neg hbr] at hflag ⊢
          have hA1 := stepB sim s f f1 fromI toI (r1 - 1) ((fromI + toI) / 2)
            h0 hm1 hm2 hts (by omega) hA hB hU hR hI1 hI2
          have hB1 := transferB sim s f f1 fromI toI h0 hB hU hR
          obtain ⟨hc, hp⟩ := ih f1 (r1 - 1 + 1) toI (by omega) hts (by omega) hk
            (fun p q hp0 hpf hfq hqs => hA1 p q hp0 (by omega) (by omega) hqs)
            hB1 hflag
          exact ⟨hc, hp.trans (hPerm 0 s.toNat h0 (by omega))⟩
      · rw [if_neg hadj] at hflag ⊢
        have hI1 : ∀ p, fromI ≤ p → p ≤ r1 →
            sim (f ((fromI + toI) / 2)) ≤ sim (f1 p) := by
          intro p hp1 hp2
          by_cases hpr : p = r1
          · rw [hpr]; exact not_lt.mp hadj
          · exact le_of_lt (hLeft p hp1 (by omega))
        have hI2 : ∀ q, r1 < q → q ≤ toI → sim (f1 q) ≤
            sim (f ((fromI + toI) / 2)) :=
          fun q hq1 hq2 => hRight q hq1 hq2
        by_cases hbr : k ≤ r1
        · rw [if_pos hbr] at hflag ⊢
          have hA1 := transferA sim s f f1 fromI toI hts hA hU hR
          have hB1 := stepB sim s f f1 fromI toI r1 ((fromI + toI) / 2)
            h0 hm1 hm2 hts (by omega) hA hB hU hR hI1 hI2
          obtain ⟨hc, hp⟩ := ih f1 fromI r1 h0 (by omega) hfk (by omega)
            hA1 hB1 hflag
          exact ⟨hc, hp.trans (hPerm 0 s.toNat h0 (by omega))⟩
        · rw [if_neg hbr] at hflag ⊢
          have hA1 := stepB sim s f f1 fromI toI r1 ((fromI + toI) / 2)
            h0 hm1 hm2 hts (by omega) hA hB hU hR hI1 hI2
          have hB1 := transferB sim s f f1 fromI toI h0 hB hU hR
          obtain ⟨hc, hp⟩ := ih f1 (r1 + 1) toI (by omega) hts (by omega) hk
            (fun p q hp0 hpf hfq hqs => hA1 p q hp0 (by omega) (by omega) hqs)
            hB1 hflag
          exact ⟨hc, hp.trans (hPerm 0 s.toNat h0 (by omega))⟩
    · have hres : apOuter sim k f fromI toI (n + 1) = (f, true) := by
        simp only [apOuter]
        rw [if_neg hlt]
      rw [hres]
      exact ⟨apOuter_exit sim k s f fromI toI hfk hk (by omega) hA hB,
        List.Perm.refl _⟩

end Tok

/-- Claim C1, counterexample: `argpartition` keeps the *largest* scores in
front, not the smallest.  On the spec's own scenario S1 —
`score = (0.9, 0.1, 0.5, 0.7, 0.2)`, `k = 2`, identity index array — the
loop completes and leaves `idx[0] = 0`, `idx[1] = 3` (the indices of the
two largest scores 0.9 and 0.7), so `idx[0..2)` is not a permutation of
`{1, 4}` as the claim states. -/
theorem claim_C1_counterexample :
    (Tok.argpartition Tok.s1score 2 5 fun p => p).2 = true ∧
    (Tok.argpartition Tok.s1score 2 5 fun p => p).1 0 = 0 ∧
    (Tok.argpartition Tok.s1score 2 5 fun p => p).1 1 = 3 ∧
    ¬((Tok.argpartition Tok.s1score 2 5 fun p => p).1 0 = 1 ∨
      (Tok.argpartition Tok.s1score 2 5 fun p => p).1 0 = 4) := by
  refine ⟨by decide, by decide, by decide, ?_⟩
  decide

/-- Claim C1, amended: the top-k partition partially reorders `idx` in
place so that the `k` **largest** values of `score[idx[i]]` end up in
`idx[0..k)`: whenever `partition(idx, score, k, s)` returns (the completion
flag of the fuelled loop), `min(score[idx[0..k)]) ≥ max(score[idx[k..s)])`,
and the window `idx[0..s)` is a permutation of its initial contents; for
S1 with `k = 2`, `idx[0..2)` is a permutation of `{0, 3}` (the indices of
the two largest scores). -/
theorem claim_C1 (sim : ℤ → ℚ) (k s : ℤ) (f : ℤ → ℤ)
    (hk0 : 0 ≤ k) (hks : k ≤ s)
    (hdone : (Tok.argpartition sim k s f).2 = true) :
    (∀ a b, 0 ≤ a → a < k → k ≤ b → b < s →
      sim ((Tok.argpartition sim k s f).1 b) ≤
        sim ((Tok.argpartition sim k s f).1 a)) ∧
    (Tok.mapRange (Tok.argpartition sim k s f).1 0 s.toNat).Perm
      (Tok.mapRange f 0 s.toNat) := by
  unfold Tok.argpartition at hdone ⊢
  exact Tok.apOuter_spec sim k s ((s.toNat + 2) * (s.toNat + 2)) f 0 (s - 1)
    (le_refl 0) (by omega) hk0 (by omega)
    (fun p q hp0 hpf _ _ => absurd hpf (by omega))
    (fun p q _ _ htq hqs => absurd htq (by omega))
    hdone

/-- Witness for C1 at the (corrected) S1 instance. -/
theorem claim_C1_witness :
    ((0 : ℤ) ≤ 2 ∧ (2 : ℤ) ≤ 5 ∧
      (Tok.argpartition Tok.s1score 2 5 fun p => p).2 = true) ∧
    ((∀ a b : ℤ, 0 ≤ a → a < 2 → 2 ≤ b → b < 5 →
        Tok.s1score ((Tok.argpartition Tok.s1score 2 5 fun p => p).1 b) ≤
          Tok.s1score ((Tok.argpartition Tok.s1score 2 5 fun p => p).1 a)) ∧
      (Tok.mapRange (Tok.argpartition Tok.s1score 2 5 fun p => p).1 0
          (5 : ℤ).toNat).Perm
        (Tok.mapRange (fun p => p) 0 (5 : ℤ).toNat)) :=
  ⟨⟨by decide, by decide, by decide⟩,
    claim_C1 Tok.s1score 2 5 (fun p => p) (by decide) (by decide) (by decide)⟩
